import Mathlib

/-!
Shallow embedding of `pdf_renamer/renamer.py` (the pdf-renamer repository):
the Heuristic Splitter (`Renamer._split_publisher_and_title`), the kebab-casing
in `Renamer.rename`, the Filename Builder (`Renamer._make_unique_filename`),
the model-output parsing (`Renamer._invoke_model`, `Renamer._extract_publish_date`,
`Renamer._extract_publisher`), the path arithmetic of the move step, and the
batch runner `run`.  Python strings are embedded as Lean `String`/`List Char`;
Python `None` as `Option`; an uncaught Python exception as `Except.error`;
the external collaborators (PDF loader, model backend, filesystem) appear as
explicit parameters carrying their observable outcomes.
-/

namespace PdfRenamer

/-- Models the Python `str.isspace` predicate on the characters that can occur here:
ASCII whitespace plus the common Unicode spaces (NBSP, ideographic space).
(The full Unicode table of Python lives in the external runtime.) -/
def pyIsSpace (c : Char) : Bool :=
  c == ' ' || c == '\t' || c == '\n' || c == '\r' ||
  c == '\x0b' || c == '\x0c' || c == ' ' || c == '　'

/-- Python `str.strip()` on a character list: remove leading and trailing
whitespace. -/
def pyStripL (l : List Char) : List Char :=
  ((l.dropWhile pyIsSpace).reverse.dropWhile pyIsSpace).reverse

/-- Python `str.strip()` on a `String`. -/
def pyStrip (s : String) : String :=
  ⟨pyStripL s.data⟩

/-- Split a character list at the LAST occurrence of `sep`:
`rsplitOnce sep l = some (b, a)` when `l = b ++ sep :: a` with `sep ∉ a`,
and `none` when `sep` does not occur.  This is the content of the Python
`str.rsplit(sep, 1)` for a one-character separator. -/
def rsplitOnce (sep : Char) : List Char → Option (List Char × List Char)
  | [] => none
  | c :: cs =>
    match rsplitOnce sep cs with
    | some (b, a) => some (c :: b, a)
    | none => if c = sep then some ([], cs) else none

/-- Embeds `Renamer._split_publisher_and_title` (renamer.py lines 243-253):
`parts = [x.strip() for x in filename.rsplit("_", 1)]`; if only one part,
retry with `"-"`; if still one part, append the literal `"no-publisher"`;
finally `title, publisher = parts`. -/
def split_publisher_and_title (filename : String) : String × String :=
  match rsplitOnce '_' filename.data with
  | some (b, a) => (⟨pyStripL b⟩, ⟨pyStripL a⟩)
  | none =>
    match rsplitOnce '-' filename.data with
    | some (b, a) => (⟨pyStripL b⟩, ⟨pyStripL a⟩)
    | none => (pyStrip filename, "no-publisher")

/-- The part of the stem after the last occurrence of `sep` (empty when `sep`
does not occur); used to state that the publisher output of the splitter comes from
the separator split itself, not from sentinel substitution. -/
def afterLast (sep : Char) (s : String) : List Char :=
  match rsplitOnce sep s.data with
  | some (_, a) => a
  | none => []

/-- The part of the stem before the last occurrence of `sep` (the whole stem
when `sep` does not occur). -/
def beforeLast (sep : Char) (s : String) : List Char :=
  match rsplitOnce sep s.data with
  | some (b, _) => b
  | none => s.data

/-- Python `str.split()` with no argument: maximal runs of non-whitespace
characters, with whitespace runs (including leading/trailing ones) discarded. -/
def pySplit : List Char → List (List Char)
  | [] => []
  | c :: cs =>
    if pyIsSpace c then pySplit cs
    else (c :: cs.takeWhile (fun x => !pyIsSpace x)) ::
      pySplit (cs.dropWhile (fun x => !pyIsSpace x))
termination_by l => l.length
decreasing_by
  · simp only [List.length_cons]
    exact Nat.lt_succ_of_le (Nat.le_refl _)
  · simp only [List.length_cons]
    exact Nat.lt_succ_of_le (List.dropWhile_sublist _).length_le

/-- The kebab-casing applied to the finalized title and publisher in
`Renamer.rename` (renamer.py lines 174-178):
`"-".join([w for w in s.split() if w])`. -/
def kebab (s : String) : String :=
  ⟨List.intercalate ['-'] ((pySplit s.data).filter (fun w => !w.isEmpty))⟩

/-- Modelled from the words of the spec (§8, kebab-casing): on the input trimmed of
leading and trailing whitespace, replace each maximal (internal) whitespace run
by a single hyphen, leaving every non-whitespace character unchanged and in
order.  Used only to compare the `kebab` of the code against the spec. -/
def collapseRuns : List Char → List Char
  | [] => []
  | c :: cs =>
    if pyIsSpace c then '-' :: collapseRuns (cs.dropWhile pyIsSpace)
    else c :: collapseRuns cs
termination_by l => l.length
decreasing_by
  · simp only [List.length_cons]
    exact Nat.lt_succ_of_le (List.dropWhile_sublist _).length_le
  · simp only [List.length_cons]
    exact Nat.lt_succ_of_le (Nat.le_refl _)

/-- Modelled from the words of the spec (§8): collapse each maximal internal
whitespace run into a single hyphen, dropping leading/trailing whitespace,
preserving all other characters verbatim. -/
def specCollapse (l : List Char) : List Char :=
  collapseRuns (pyStripL l)

/-- The decimal digit character for `n < 10`. -/
def digitChar (n : Nat) : Char :=
  Char.ofNat (48 + n)

/-- Structural worker for the decimal representation: `natReprGo f n` is the
decimal digit string of `n` whenever `n ≤ f` (the fuel only enables structural
recursion, so that the definition evaluates by kernel reduction). -/
def natReprGo : Nat → Nat → List Char
  | 0, n => [digitChar n]
  | fuel + 1, n =>
    if n < 10 then [digitChar n]
    else natReprGo fuel (n / 10) ++ [digitChar (n % 10)]

/-- Decimal representation of a natural number as characters; models the Python
rendering of `count` inside the f-string of `_make_unique_filename`. -/
def natRepr (n : Nat) : List Char :=
  natReprGo n n

/-- Decimal representation as a `String`. -/
def natReprS (n : Nat) : String :=
  ⟨natRepr n⟩

/-- The candidate filename sequence of `Renamer._make_unique_filename`
(renamer.py lines 263-272): index `0` is the base candidate
`{publish_date}_{publisher}_{title}{suffix}`, and index `k ≥ 1` is the
collision-suffixed `{publish_date}_{publisher}_{title}_{k}{suffix}`. -/
def uniqueCand (publish_date publisher title suffix : String) : Nat → String
  | 0 => publish_date ++ "_" ++ publisher ++ "_" ++ title ++ suffix
  | k + 1 =>
    publish_date ++ "_" ++ publisher ++ "_" ++ title ++ "_" ++ natReprS (k + 1) ++ suffix

/-- The `while candidate.exists()` loop of `_make_unique_filename`: starting at
candidate index `i`, return the first candidate not among `existing`.  The
`fuel` argument only bounds the search; with the fuel used below it is never
exhausted (proved via pigeonhole on the injective candidate sequence). -/
def uniqueLoop (existing : List String) (cand : Nat → String) (i : Nat) : Nat → String
  | 0 => cand i
  | fuel + 1 => if cand i ∈ existing then uniqueLoop existing cand (i + 1) fuel else cand i

/-- Embeds `Renamer._make_unique_filename`, name part: the first candidate (base, then
`_1`, `_2`, ...) whose name is not already present in the output directory,
whose listing is abstracted as the list `existing` of names. -/
def make_unique_name (existing : List String) (publish_date publisher title suffix : String) :
    String :=
  uniqueLoop existing (uniqueCand publish_date publisher title suffix) 0
    (existing.length + 1)

/-- A POSIX-style `pathlib` path: an absoluteness flag plus components. -/
structure PPath where
  absolute : Bool
  parts : List String
deriving DecidableEq, Repr

/-- Embeds the `/` operator of `pathlib`: if the right operand is absolute it replaces the
left; otherwise the components concatenate. -/
def PPath.join (p q : PPath) : PPath :=
  if q.absolute then q else ⟨p.absolute, p.parts ++ q.parts⟩

/-- Embeds `Renamer._make_unique_filename` (renamer.py lines 255-274): the full
candidate path `self._out_path / name`. -/
def make_unique_filename (out : PPath) (existing : List String)
    (publish_date publisher title suffix : String) : PPath :=
  out.join ⟨false, [make_unique_name existing publish_date publisher title suffix]⟩

/-- The destination actually passed to `file.replace` in `run`
(renamer.py line 301): `output_dir / renamed`, where `renamed` is the full
path returned by `Renamer.rename`. -/
def moveDest (outDir renamed : PPath) : PPath :=
  outDir.join renamed

/-- A JSON value, as produced by `json.loads` on the response text of the model. -/
inductive Json where
  | null
  | bool (b : Bool)
  | num (n : Int)
  | str (s : String)
  | arr (elems : List Json)
  | obj (fields : List (String × Json))

/-- Python equality of a `str` needle against a JSON value (only an equal
string compares equal). -/
def Json.isStrEq (k : String) : Json → Bool
  | .str s => k == s
  | _ => false

/-- Python truthiness of a JSON value. -/
def pyTruthy : Json → Bool
  | .null => false
  | .bool b => b
  | .num n => n != 0
  | .str s => !s.isEmpty
  | .arr xs => !xs.isEmpty
  | .obj fs => !fs.isEmpty

/-- Whether the first list is a prefix of the second. -/
def listStartsWith : List Char → List Char → Bool
  | [], _ => true
  | _ :: _, [] => false
  | a :: as, b :: bs => a == b && listStartsWith as bs

/-- Whether the first list occurs contiguously inside the second (the Python
`needle in haystack` for strings). -/
def listIsSubstr (needle : List Char) : List Char → Bool
  | [] => needle.isEmpty
  | c :: cs => listStartsWith needle (c :: cs) || listIsSubstr needle cs

/-- Python `key in j` for a string key: key lookup on a dict, membership on a
list, substring test on a string, `TypeError` otherwise (also on `None`, which
`json.loads` produces for the document `null`). -/
def pyInKey (key : String) : Json → Except String Bool
  | .obj fields => .ok (fields.any (fun kv => kv.1 == key))
  | .arr xs => .ok (xs.any (Json.isStrEq key))
  | .str s => .ok (listIsSubstr key.data s.data)
  | _ => .error "TypeError: argument is not iterable"

/-- Python `j[key]` for a string key: dict lookup (`json.loads` keeps the last
binding of a duplicated key), `KeyError` when absent, `TypeError` on
non-dict values. -/
def pyGetItem (key : String) : Json → Except String Json
  | .obj fields =>
    match (fields.filter (fun kv => kv.1 == key)).getLast? with
    | some kv => .ok kv.2
    | none => .error "KeyError"
  | _ => .error "TypeError: not subscriptable by str"

/-- A Gregorian calendar date, as held by Python `datetime.date`. -/
structure PyDate where
  year : Nat
  month : Nat
  day : Nat
deriving DecidableEq, Repr

/-- Gregorian leap-year test. -/
def isLeap (y : Nat) : Bool :=
  (y % 4 == 0 && y % 100 != 0) || y % 400 == 0

/-- Days in a month of a given year. -/
def daysInMonth (y m : Nat) : Nat :=
  if m == 2 then (if isLeap y then 29 else 28)
  else if m == 4 || m == 6 || m == 9 || m == 11 then 30
  else 31

/-- Numeric value of a decimal digit character. -/
def digVal (c : Char) : Nat :=
  c.toNat - 48

/-- Models Python `datetime.date.fromisoformat` on the canonical `YYYY-MM-DD`
form (the form the prompt requests); any other shape, or an out-of-range
calendar component, raises `ValueError`, embedded as `none`.  The extra accepted stdlib forms belong to the external runtime. -/
def date_fromisoformat (s : String) : Option PyDate :=
  match s.data with
  | [y1, y2, y3, y4, s1, m1, m2, s2, d1, d2] =>
    if y1.isDigit && y2.isDigit && y3.isDigit && y4.isDigit && s1 == '-' &&
        m1.isDigit && m2.isDigit && s2 == '-' && d1.isDigit && d2.isDigit then
      let y := ((digVal y1 * 10 + digVal y2) * 10 + digVal y3) * 10 + digVal y4
      let m := digVal m1 * 10 + digVal m2
      let d := digVal d1 * 10 + digVal d2
      if 1 ≤ y && 1 ≤ m && m ≤ 12 && 1 ≤ d && d ≤ daysInMonth y m then
        some ⟨y, m, d⟩
      else none
    else none
  | _ => none

/-- Left-pad a digit list with zeros to width `w`. -/
def padZeros (w : Nat) (ds : List Char) : List Char :=
  List.replicate (w - ds.length) '0' ++ ds

/-- Models Python `date.strftime` for the directives that matter here
(`%Y`, `%m`, `%d`, `%%`); other characters pass through verbatim. -/
def strftimeAux (d : PyDate) : List Char → List Char
  | [] => []
  | '%' :: c :: rest =>
    (if c = 'Y' then padZeros 4 (natRepr d.year)
     else if c = 'm' then padZeros 2 (natRepr d.month)
     else if c = 'd' then padZeros 2 (natRepr d.day)
     else if c = '%' then ['%']
     else ['%', c]) ++ strftimeAux d rest
  | c :: rest => c :: strftimeAux d rest

/-- Embeds `date.strftime(self._date_format)` as a `String` function. -/
def date_strftime (d : PyDate) (fmt : String) : String :=
  ⟨strftimeAux d fmt.data⟩

/-- The `TypeError` message Python raises for `"k" in None`. -/
def typeErrorNoneNotIterable : String :=
  "TypeError: argument of type NoneType is not iterable"

/-- The Python pattern `if key in answer and answer[key]: x = answer[key]`
(else `x` stays `None`): returns `some` of the stored value exactly when the
key is present with a truthy value; propagates the `TypeError` that `in` or
subscription raises on non-dict values. -/
def extractField (key : String) (a : Json) : Except String (Option Json) :=
  match pyInKey key a with
  | .error e => .error e
  | .ok false => .ok none
  | .ok true =>
    match pyGetItem key a with
    | .error e => .error e
    | .ok v => .ok (if pyTruthy v then some v else none)

/-- Embeds `Renamer._extract_publish_date` (renamer.py lines 196-217) composed with
`_invoke_model` (lines 185-194): `answer` is `none` when `json.loads` raised
`JSONDecodeError` (in which case `_invoke_model` logged and returned `None`),
otherwise the parsed JSON value.  An `Except.error` is an uncaught Python
exception escaping the method. -/
def extract_publish_date (date_format : String) (answer : Option Json) :
    Except String (Option String) :=
  match answer with
  | none => .error typeErrorNoneNotIterable
  | some a =>
    match extractField "end_date" a with
    | .error e => .error e
    | .ok none => .ok none
    | .ok (some v) =>
      match v with
      | .str s =>
        match date_fromisoformat s with
        | none => .ok none
        | some d => .ok (some (date_strftime d date_format))
      | _ => .error "TypeError: fromisoformat: argument must be str"

/-- Embeds `Renamer._extract_publisher` (renamer.py lines 219-241) composed with
`_invoke_model`: returns `(title, publisher)`, each `none` unless the parsed
JSON has a truthy value under the respective key; the publisher field is
inspected first, as in the source. -/
def extract_publisher (answer : Option Json) :
    Except String (Option Json × Option Json) :=
  match answer with
  | none => .error typeErrorNoneNotIterable
  | some a =>
    match extractField "publisher" a with
    | .error e => .error e
    | .ok publisher =>
      match extractField "title" a with
      | .error e => .error e
      | .ok title => .ok (title, publisher)

/-- Python `x or default` for `x` a model-extracted value (`None` or a JSON
value): the default is used when `x` is `None` or falsy. -/
def pyOrJson (x : Option Json) (default : Json) : Json :=
  match x with
  | some v => if pyTruthy v then v else default
  | none => default

/-- The fallback combination in `Renamer.rename` (renamer.py lines 166-172):
if either model field is `None`, split the stem heuristically and fill each
field with `field or heuristic_field`; otherwise keep both model values. -/
def resolve_title_publisher (mtitle mpublisher : Option Json) (stem : String) :
    Json × Json :=
  match mtitle, mpublisher with
  | some t, some p => (t, p)
  | mt, mp =>
    let h := split_publisher_and_title stem
    (pyOrJson mt (.str h.1), pyOrJson mp (.str h.2))

/-- Embeds `title.split()` on a model-extracted value: kebab-casing succeeds only on
a string; any other JSON value has no `.split` (`AttributeError`). -/
def pyKebabJson : Json → Except String String
  | .str s => .ok (kebab s)
  | _ => .error "AttributeError: split"

/-- Embeds `Renamer.rename` (renamer.py lines 154-183) downstream of the external
collaborators: `dateAnswer` and `pubAnswer` are the `json.loads` outcomes of
the two model invocations, `stem`/`suffix` come from the input path, and
`existing` abstracts the output directory listing. -/
def rename (date_format : String) (out : PPath) (existing : List String)
    (dateAnswer pubAnswer : Option Json) (stem suffix : String) :
    Except String PPath := do
  let pd ← extract_publish_date date_format dateAnswer
  let publish_date := match pd with | none => "no-date" | some d => d
  let mtp ← extract_publisher pubAnswer
  let tp := resolve_title_publisher mtp.1 mtp.2 stem
  let title ← pyKebabJson tp.1
  let publisher ← pyKebabJson tp.2
  pure (make_unique_filename out existing publish_date publisher title suffix)

/-- The observable outcome of processing one input file, abstracting the
external collaborators: `renameOutcome` is what `renamer.rename(file)` does
(raise / return `None` / return a path), and `moveOutcome` is what
`file.replace(...)` would do if attempted. -/
structure FileProc where
  renameOutcome : Except String (Option PPath)
  moveOutcome : Except String Unit

/-- What the batch loop visibly did with one file. -/
inductive FileEvent where
  | skipped (msg : String)
  | noRename
  | moved (dest : PPath)
deriving DecidableEq, Repr

/-- The per-file loop of `run` (renamer.py lines 293-301): exceptions from
`renamer.rename` are caught and logged (`skipped`); on success the file is
moved to `output_dir / renamed` — but an exception from `file.replace` is NOT
caught (it is raised outside the `try`), so it aborts the loop, returned as
`some msg` with the remaining files unprocessed. -/
def processFiles (outDir : PPath) : List FileProc → List FileEvent × Option String
  | [] => ([], none)
  | f :: fs =>
    match f.renameOutcome with
    | .error e =>
      let r := processFiles outDir fs
      (.skipped e :: r.1, r.2)
    | .ok none =>
      let r := processFiles outDir fs
      (.noRename :: r.1, r.2)
    | .ok (some p) =>
      match f.moveOutcome with
      | .error e => ([], some e)
      | .ok _ =>
        let r := processFiles outDir fs
        (.moved (moveDest outDir p) :: r.1, r.2)

/-- The expected event for one file when no move aborts the batch. -/
def eventOf (outDir : PPath) (f : FileProc) : FileEvent :=
  match f.renameOutcome with
  | .error e => .skipped e
  | .ok none => .noRename
  | .ok (some p) => .moved (moveDest outDir p)

/-- Embeds `run` (renamer.py lines 277-304): the directory pre-checks in source
order, then the per-file loop.  Returns the logged events together with the
exit code (`Except.error` = an exception escaped `run`, crashing the
process). -/
def run (inputExists : Bool) (outputExists : Bool) (outDir : PPath)
    (files : List FileProc) : List FileEvent × Except String Int :=
  if !inputExists then ([], .ok 0)
  else if files.isEmpty then ([], .ok 0)
  else if !outputExists then ([], .ok 1)
  else
    match processFiles outDir files with
    | (evs, none) => (evs, .ok 0)
    | (evs, some e) => (evs, .error e)

/-! ## Theorems -/

theorem rsplitOnce_eq_none (sep : Char) (l : List Char) :
    rsplitOnce sep l = none ↔ sep ∉ l := by
  induction l with
  | nil => simp [rsplitOnce]
  | cons c cs ih =>
    simp only [rsplitOnce, List.mem_cons]
    cases h : rsplitOnce sep cs with
    | some p =>
      have hmem : sep ∈ cs := by
        by_contra hn
        rw [ih.2 hn] at h
        cases h
      simp [hmem]
    | none =>
      have hcs : sep ∉ cs := ih.1 h
      by_cases hc : c = sep
      · simp [hc, hcs]
      · simp [hc, hcs, Ne.symm hc]

theorem rsplitOnce_eq_some (sep : Char) (l b a : List Char) :
    rsplitOnce sep l = some (b, a) ↔ l = b ++ sep :: a ∧ sep ∉ a := by
  induction l generalizing b a with
  | nil =>
    simp only [rsplitOnce]
    constructor
    · intro h; cases h
    · rintro ⟨h, -⟩; exact absurd h (by simp)
  | cons c cs ih =>
    simp only [rsplitOnce]
    cases h : rsplitOnce sep cs with
    | some p =>
      obtain ⟨b', a'⟩ := p
      have hcs := (ih b' a').1 h
      simp only [Option.some.injEq, Prod.mk.injEq]
      constructor
      · rintro ⟨rfl, rfl⟩
        exact ⟨by rw [hcs.1]; simp, hcs.2⟩
      · rintro ⟨he, hna⟩
        cases b with
        | nil =>
          simp only [List.nil_append] at he
          injection he with h1 h2
          exact absurd (h2 ▸ hcs.1 ▸ (by simp : sep ∈ b' ++ sep :: a')) hna
        | cons x xs =>
          simp only [List.cons_append] at he
          injection he with h1 h2
          have h3 := (ih xs a).2 ⟨h2, hna⟩
          rw [h] at h3
          injection h3 with h4
          injection h4 with h5 h6
          exact ⟨by rw [h1, h5], h6⟩
    | none =>
      have hcs : sep ∉ cs := (rsplitOnce_eq_none sep cs).1 h
      by_cases hc : c = sep
      · simp only [if_pos hc, Option.some.injEq, Prod.mk.injEq]
        constructor
        · rintro ⟨rfl, rfl⟩
          exact ⟨by rw [hc]; simp, hcs⟩
        · rintro ⟨he, hna⟩
          cases b with
          | nil =>
            simp only [List.nil_append] at he
            injection he with h1 h2
            exact ⟨rfl, h2⟩
          | cons x xs =>
            simp only [List.cons_append] at he
            injection he with h1 h2
            exact absurd (h2 ▸ (by simp : sep ∈ xs ++ sep :: a)) hcs
      · simp only [if_neg hc]
        constructor
        · intro he; cases he
        · rintro ⟨he, hna⟩
          cases b with
          | nil =>
            simp only [List.nil_append] at he
            injection he with h1 h2
            exact absurd h1 hc
          | cons x xs =>
            simp only [List.cons_append] at he
            injection he with h1 h2
            exact absurd (h2 ▸ (by simp : sep ∈ xs ++ sep :: a)) hcs

theorem dropWhile_eq_nil_of_all {p : Char → Bool} {l : List Char}
    (h : ∀ c ∈ l, p c) : l.dropWhile p = [] := by
  induction l with
  | nil => rfl
  | cons c cs ih =>
    rw [List.dropWhile_cons]
    simp [h c (by simp), ih (fun x hx => h x (by simp [hx]))]

theorem pyStripL_of_all_ws {l : List Char} (h : ∀ c ∈ l, pyIsSpace c) :
    pyStripL l = [] := by
  unfold pyStripL
  rw [dropWhile_eq_nil_of_all h]
  rfl

theorem split_underscore (s : String) (b a : List Char)
    (hd : s.data = b ++ '_' :: a) (hl : '_' ∉ a) :
    split_publisher_and_title s = (⟨pyStripL b⟩, ⟨pyStripL a⟩) := by
  simp only [split_publisher_and_title, (rsplitOnce_eq_some '_' s.data b a).2 ⟨hd, hl⟩]

theorem split_dash (s : String) (b a : List Char)
    (hu : '_' ∉ s.data) (hd : s.data = b ++ '-' :: a) (hl : '-' ∉ a) :
    split_publisher_and_title s = (⟨pyStripL b⟩, ⟨pyStripL a⟩) := by
  simp only [split_publisher_and_title, (rsplitOnce_eq_none '_' s.data).2 hu,
    (rsplitOnce_eq_some '-' s.data b a).2 ⟨hd, hl⟩]

theorem split_no_sep (s : String) (hu : '_' ∉ s.data) (hh : '-' ∉ s.data) :
    split_publisher_and_title s = (pyStrip s, "no-publisher") := by
  simp only [split_publisher_and_title, (rsplitOnce_eq_none '_' s.data).2 hu,
    (rsplitOnce_eq_none '-' s.data).2 hh]

/-- C6 counterexample: the stem `" a "` contains neither `_` nor `-`, yet the
Heuristic Splitter returns title `"a"` — the stripped stem, not the full stem
unchanged as the claim states. -/
theorem c6_full_stem_counterexample :
    ('_' ∉ " a ".data ∧ '-' ∉ " a ".data) ∧
    split_publisher_and_title " a " = ("a", "no-publisher") ∧
    ("a" : String) ≠ " a " := by
  refine ⟨by decide, by decide, by decide⟩

/-- C6 (amended): for every stem containing no `_` and no `-`, the Heuristic
Splitter returns publisher = the sentinel `"no-publisher"` and title = the stem
stripped of leading/trailing whitespace; the title is the full stem unchanged
exactly when the stem has no leading/trailing whitespace to strip. -/
theorem c6_no_separator (s : String) (hu : '_' ∉ s.data) (hh : '-' ∉ s.data) :
    split_publisher_and_title s = (pyStrip s, "no-publisher") ∧
    (pyStripL s.data = s.data → (split_publisher_and_title s).1 = s) := by
  refine ⟨split_no_sep s hu hh, fun h => ?_⟩
  rw [split_no_sep s hu hh]
  show pyStrip s = s
  unfold pyStrip
  rw [h]

/-- C6 witness: the amended theorem evaluated at the separator-free stem
`"abc"`. -/
theorem c6_no_separator_witness :
    split_publisher_and_title "abc" = ("abc", "no-publisher") := by
  have h := c6_no_separator "abc" (by decide) (by decide)
  exact h.1.trans (by decide)

/-- C7: for every stem containing at least one `_`, the stem decomposes at the
LAST underscore, and the Heuristic Splitter returns the whitespace-trimmed part
before it as the title and the trimmed part after it as the publisher; the
result is fully determined by the underscore split, so the `-` fallback is
never consulted for such stems. -/
theorem c7_last_underscore_split (s : String) (h : '_' ∈ s.data) :
    s.data = beforeLast '_' s ++ '_' :: afterLast '_' s ∧
    '_' ∉ afterLast '_' s ∧
    split_publisher_and_title s =
      (⟨pyStripL (beforeLast '_' s)⟩, ⟨pyStripL (afterLast '_' s)⟩) := by
  cases hr : rsplitOnce '_' s.data with
  | none => exact absurd h (by simpa using (rsplitOnce_eq_none '_' s.data).1 hr)
  | some p =>
    obtain ⟨b, a⟩ := p
    have hd := (rsplitOnce_eq_some '_' s.data b a).1 hr
    have hb : beforeLast '_' s = b := by simp [beforeLast, hr]
    have ha : afterLast '_' s = a := by simp [afterLast, hr]
    rw [hb, ha]
    exact ⟨hd.1, hd.2, split_underscore s b a hd.1 hd.2⟩

/-- C7 witness: the stem `"a b_c _ pub"` splits at its last underscore into
trimmed title `"a b_c"` and publisher `"pub"`. -/
theorem c7_witness :
    split_publisher_and_title "a b_c _ pub" = ("a b_c", "pub") := by
  have h := c7_last_underscore_split "a b_c _ pub" (by decide)
  exact h.2.2.trans (by decide)

/-- C10: when the stem has a separator whose after-part (resp. before-part) is
all whitespace — in particular a trailing separator — the splitter returns the
empty string for the publisher (resp. title), never the sentinel; whenever `_`
occurs at all, the publisher is the trimmed after-part of the underscore split
(sentinel substitution only happens with no separator); and with an empty
publisher the built base filename contains consecutive underscores. -/
theorem c10_empty_fields (s : String) :
    (∀ b a, s.data = b ++ '_' :: a → '_' ∉ a → (∀ c ∈ a, pyIsSpace c) →
      (split_publisher_and_title s).2 = "") ∧
    (∀ b a, s.data = b ++ '_' :: a → '_' ∉ a → (∀ c ∈ b, pyIsSpace c) →
      (split_publisher_and_title s).1 = "") ∧
    (∀ b a, '_' ∉ s.data → s.data = b ++ '-' :: a → '-' ∉ a →
      (∀ c ∈ a, pyIsSpace c) → (split_publisher_and_title s).2 = "") ∧
    ('_' ∈ s.data →
      (split_publisher_and_title s).2 = ⟨pyStripL (afterLast '_' s)⟩) ∧
    (∀ d t e, (uniqueCand d "" t e 0).data =
      d.data ++ ('_' :: '_' :: t.data) ++ e.data) := by
  refine ⟨?_, ?_, ?_, ?_, ?_⟩
  · intro b a hd hl hws
    rw [split_underscore s b a hd hl]
    show String.mk (pyStripL a) = ""
    rw [pyStripL_of_all_ws hws]
  · intro b a hd hl hws
    rw [split_underscore s b a hd hl]
    show String.mk (pyStripL b) = ""
    rw [pyStripL_of_all_ws hws]
  · intro b a hu hd hl hws
    rw [split_dash s b a hu hd hl]
    show String.mk (pyStripL a) = ""
    rw [pyStripL_of_all_ws hws]
  · intro h
    cases hr : rsplitOnce '_' s.data with
    | none => exact absurd h (by simpa using (rsplitOnce_eq_none '_' s.data).1 hr)
    | some p =>
      obtain ⟨b, a⟩ := p
      have hd := (rsplitOnce_eq_some '_' s.data b a).1 hr
      have ha : afterLast '_' s = a := by simp [afterLast, hr]
      rw [ha, split_underscore s b a hd.1 hd.2]
  · intro d t e
    show (d ++ "_" ++ "" ++ "_" ++ t ++ e).data =
      d.data ++ ('_' :: '_' :: t.data) ++ e.data
    simp [String.data_append]

/-- C10 witness: the stem `"foo_"` ends in its only underscore, so the
publisher comes back empty, and the base filename built from an empty
publisher contains `__`. -/
theorem c10_empty_fields_witness :
    (split_publisher_and_title "foo_").2 = "" ∧
    (uniqueCand "d" "" "t" ".pdf" 0).data =
      "d".data ++ ('_' :: '_' :: "t".data) ++ ".pdf".data := by
  refine ⟨(c10_empty_fields "foo_").1 "foo".data [] (by decide) (by decide)
    (by intro c hc; cases hc), (c10_empty_fields "x").2.2.2.2 "d" "t" ".pdf"⟩

/-! ### Kebab-casing (C8) -/

theorem takeWhile_append_all {p : Char → Bool} {l1 l2 : List Char}
    (h : ∀ c ∈ l1, p c = true) :
    (l1 ++ l2).takeWhile p = l1 ++ l2.takeWhile p := by
  induction l1 with
  | nil => rfl
  | cons c cs ih =>
    rw [List.cons_append, List.takeWhile_cons, if_pos (h c (List.mem_cons_self c cs)),
      ih (fun x hx => h x (List.mem_cons_of_mem _ hx))]
    rfl

theorem dropWhile_append_all {p : Char → Bool} {l1 l2 : List Char}
    (h : ∀ c ∈ l1, p c = true) :
    (l1 ++ l2).dropWhile p = l2.dropWhile p := by
  induction l1 with
  | nil => rfl
  | cons c cs ih =>
    rw [List.cons_append, List.dropWhile_cons, if_pos (h c (List.mem_cons_self c cs))]
    exact ih (fun x hx => h x (List.mem_cons_of_mem _ hx))

theorem dropWhile_head_false {p : Char → Bool} {l : List Char} {c : Char} {cs : List Char}
    (h : l.dropWhile p = c :: cs) : p c = false := by
  induction l with
  | nil => cases h
  | cons x xs ih =>
    rw [List.dropWhile_cons] at h
    by_cases hx : p x
    · exact ih (by rwa [if_pos hx] at h)
    · rw [if_neg hx] at h
      injection h with h1 _
      rw [← h1]
      exact Bool.eq_false_iff.2 hx

theorem all_of_dropWhile_eq_nil {p : Char → Bool} {l : List Char}
    (h : l.dropWhile p = []) : ∀ c ∈ l, p c = true := by
  induction l with
  | nil => intro c hc; cases hc
  | cons c cs ih =>
    rw [List.dropWhile_cons] at h
    by_cases hc : p c
    · intro x hx
      rcases List.mem_cons.1 hx with rfl | hx
      · exact hc
      · exact ih (by rwa [if_pos hc] at h) x hx
    · rw [if_neg hc] at h; cases h

theorem takeWhile_eq_self_of_dropWhile_nil {p : Char → Bool} {l : List Char}
    (h : l.dropWhile p = []) : l.takeWhile p = l := by
  conv_rhs => rw [← List.takeWhile_append_dropWhile p l]
  rw [h, List.append_nil]

theorem pySplit_nil : pySplit [] = [] := by
  rw [pySplit]

theorem collapseRuns_nil : collapseRuns [] = [] := by
  rw [collapseRuns]

theorem takeWhile_nw_ws_run {r : List Char}
    (hr : r = [] ∨ ∃ c cs, r = c :: cs ∧ pyIsSpace c = true) :
    r.takeWhile (fun x => !pyIsSpace x) = [] := by
  rcases hr with rfl | ⟨c, cs, rfl, hc⟩
  · rfl
  · simp [List.takeWhile_cons, hc]

theorem dropWhile_nw_ws_run {r : List Char}
    (hr : r = [] ∨ ∃ c cs, r = c :: cs ∧ pyIsSpace c = true) :
    r.dropWhile (fun x => !pyIsSpace x) = r := by
  rcases hr with rfl | ⟨c, cs, rfl, hc⟩
  · rfl
  · simp [List.dropWhile_cons, hc]

theorem pySplit_nil_of_all_ws {w : List Char} (h : ∀ c ∈ w, pyIsSpace c = true) :
    pySplit w = [] := by
  induction w with
  | nil => exact pySplit_nil
  | cons c cs ih =>
    rw [pySplit, if_pos (h c (List.mem_cons_self c cs))]
    exact ih (fun x hx => h x (List.mem_cons_of_mem _ hx))

theorem pySplit_token {t r : List Char} (ht : t ≠ [])
    (hnw : ∀ c ∈ t, pyIsSpace c = false)
    (hr : r = [] ∨ ∃ c cs, r = c :: cs ∧ pyIsSpace c = true) :
    pySplit (t ++ r) = t :: pySplit r := by
  cases t with
  | nil => exact absurd rfl ht
  | cons c t2 =>
    have hc : pyIsSpace c = false := hnw c (List.mem_cons_self c t2)
    have ht2 : ∀ x ∈ t2, (fun x => !pyIsSpace x) x = true := by
      intro x hx
      simp [hnw x (List.mem_cons_of_mem _ hx)]
    rw [List.cons_append, pySplit, if_neg (by simp [hc]),
      takeWhile_append_all ht2, takeWhile_nw_ws_run hr,
      dropWhile_append_all ht2, dropWhile_nw_ws_run hr, List.append_nil]

theorem pySplit_eq_nil_all_ws {l : List Char} (h : pySplit l = []) :
    ∀ c ∈ l, pyIsSpace c = true := by
  induction l using pySplit.induct with
  | case1 => intro c hc; cases hc
  | case2 c cs hc ih =>
    rw [pySplit, if_pos hc] at h
    intro x hx
    rcases List.mem_cons.1 hx with rfl | hx
    · exact hc
    · exact ih h x hx
  | case3 c cs hc ih =>
    rw [pySplit, if_neg hc] at h
    cases h

theorem pySplit_tokens {l : List Char} :
    ∀ t ∈ pySplit l, t ≠ [] ∧ ∀ c ∈ t, pyIsSpace c = false := by
  induction l using pySplit.induct with
  | case1 => intro t ht; rw [pySplit_nil] at ht; cases ht
  | case2 c cs hc ih =>
    rw [pySplit, if_pos hc]
    exact ih
  | case3 c cs hc ih =>
    rw [pySplit, if_neg hc]
    intro t ht
    rcases List.mem_cons.1 ht with rfl | ht
    · refine ⟨by simp, ?_⟩
      intro x hx
      rcases List.mem_cons.1 hx with rfl | hx
      · exact Bool.eq_false_iff.2 hc
      · have := List.mem_takeWhile_imp hx
        simpa using this
    · exact ih t ht

theorem pySplit_dropWhile_ws (l : List Char) :
    pySplit (l.dropWhile pyIsSpace) = pySplit l := by
  induction l with
  | nil => rfl
  | cons c cs ih =>
    rw [List.dropWhile_cons]
    by_cases hc : pyIsSpace c
    · rw [if_pos hc, ih, pySplit, if_pos hc]
    · rw [if_neg hc]

theorem takeWhile_dropWhile_append_of_ne {p : Char → Bool} {l B : List Char}
    (h : l.dropWhile p ≠ []) :
    (l ++ B).takeWhile p = l.takeWhile p ∧ (l ++ B).dropWhile p = l.dropWhile p ++ B := by
  induction l with
  | nil => exact absurd rfl h
  | cons c cs ih =>
    by_cases hc : p c
    · have hcs : cs.dropWhile p ≠ [] := by rwa [List.dropWhile_cons, if_pos hc] at h
      refine ⟨?_, ?_⟩
      · rw [List.cons_append, List.takeWhile_cons, if_pos hc, (ih hcs).1,
          List.takeWhile_cons, if_pos hc]
      · rw [List.cons_append, List.dropWhile_cons, if_pos hc, (ih hcs).2,
          List.dropWhile_cons, if_pos hc]
    · refine ⟨?_, ?_⟩
      · rw [List.cons_append, List.takeWhile_cons, if_neg hc, List.takeWhile_cons, if_neg hc]
      · rw [List.cons_append, List.dropWhile_cons, if_neg hc, List.dropWhile_cons, if_neg hc,
          List.cons_append]

theorem pySplit_append_ws {B : List Char} (hB : ∀ c ∈ B, pyIsSpace c = true) :
    ∀ {A : List Char}, pySplit (A ++ B) = pySplit A := by
  intro A
  induction A using pySplit.induct with
  | case1 =>
    rw [List.nil_append, pySplit_nil]
    exact pySplit_nil_of_all_ws hB
  | case2 c cs hc ih =>
    rw [List.cons_append, pySplit, if_pos hc, ih, pySplit, if_pos hc]
  | case3 c cs hc ih =>
    rw [List.cons_append, pySplit, if_neg hc, pySplit, if_neg hc]
    cases hr : cs.dropWhile (fun x => !pyIsSpace x) with
    | nil =>
      have hcs : ∀ x ∈ cs, (fun x => !pyIsSpace x) x = true := all_of_dropWhile_eq_nil hr
      have hBr : B = [] ∨ ∃ c cs, B = c :: cs ∧ pyIsSpace c = true := by
        cases B with
        | nil => exact Or.inl rfl
        | cons b bs => exact Or.inr ⟨b, bs, rfl, hB b (List.mem_cons_self b bs)⟩
      rw [takeWhile_append_all hcs, takeWhile_nw_ws_run hBr, List.append_nil,
        dropWhile_append_all hcs, dropWhile_nw_ws_run hBr,
        pySplit_nil_of_all_ws hB, takeWhile_eq_self_of_dropWhile_nil hr, pySplit_nil]
    | cons rc rcs =>
      have hne : cs.dropWhile (fun x => !pyIsSpace x) ≠ [] := by rw [hr]; simp
      rw [(takeWhile_dropWhile_append_of_ne hne).1, (takeWhile_dropWhile_append_of_ne hne).2,
        ih, hr]

theorem intercalate_nil : List.intercalate ['-'] ([] : List (List Char)) = [] := by
  simp [List.intercalate]

theorem intercalate_single (t : List Char) : List.intercalate ['-'] [t] = t := by
  simp [List.intercalate]

theorem intercalate_cons (t : List Char) {ts : List (List Char)} (h : ts ≠ []) :
    List.intercalate ['-'] (t :: ts) = t ++ '-' :: List.intercalate ['-'] ts := by
  cases ts with
  | nil => exact absurd rfl h
  | cons t2 ts2 => simp [List.intercalate, List.intersperse]

theorem mem_intercalate_hyphen {c : Char} {ts : List (List Char)}
    (h : c ∈ List.intercalate ['-'] ts) : c = '-' ∨ ∃ t ∈ ts, c ∈ t := by
  induction ts with
  | nil => rw [intercalate_nil] at h; cases h
  | cons t ts ih =>
    cases ts with
    | nil =>
      rw [intercalate_single] at h
      exact Or.inr ⟨t, List.mem_cons_self t [], h⟩
    | cons t2 ts2 =>
      rw [intercalate_cons t (by simp)] at h
      rcases List.mem_append.1 h with h | h
      · exact Or.inr ⟨t, List.mem_cons_self _ _, h⟩
      · rcases List.mem_cons.1 h with rfl | h
        · exact Or.inl rfl
        · rcases ih h with h | ⟨t3, ht3, hc3⟩
          · exact Or.inl h
          · exact Or.inr ⟨t3, List.mem_cons_of_mem _ ht3, hc3⟩

theorem collapseRuns_token {t r : List Char} (hnw : ∀ c ∈ t, pyIsSpace c = false) :
    collapseRuns (t ++ r) = t ++ collapseRuns r := by
  induction t with
  | nil => rfl
  | cons c ts ih =>
    rw [List.cons_append, collapseRuns, if_neg (by simp [hnw c (List.mem_cons_self c ts)]),
      ih (fun x hx => hnw x (List.mem_cons_of_mem _ hx)), List.cons_append]

theorem collapseRuns_eq_intercalate {l : List Char}
    (htrail : ∀ c, l.getLast? = some c → pyIsSpace c = false) :
    collapseRuns (l.dropWhile pyIsSpace) = List.intercalate ['-'] (pySplit l) := by
  induction l using pySplit.induct with
  | case1 =>
    rw [pySplit_nil, intercalate_nil]
    exact collapseRuns_nil
  | case2 c cs hc ih =>
    rw [List.dropWhile_cons, if_pos hc, pySplit, if_pos hc]
    refine ih ?_
    intro x hx
    refine htrail x ?_
    cases cs with
    | nil => cases hx
    | cons c2 cs2 => rw [List.getLast?_cons_cons]; exact hx
  | case3 c cs hc ih =>
    have hcf : pyIsSpace c = false := Bool.eq_false_iff.2 hc
    rw [List.dropWhile_cons, if_neg hc, pySplit, if_neg hc]
    have htok : ∀ x ∈ c :: cs.takeWhile (fun x => !pyIsSpace x), pyIsSpace x = false := by
      intro x hx
      rcases List.mem_cons.1 hx with rfl | hx
      · exact hcf
      · simpa using List.mem_takeWhile_imp hx
    have hdecomp : c :: cs =
        (c :: cs.takeWhile (fun x => !pyIsSpace x)) ++ cs.dropWhile (fun x => !pyIsSpace x) := by
      rw [List.cons_append, List.takeWhile_append_dropWhile]
    cases hr : cs.dropWhile (fun x => !pyIsSpace x) with
    | nil =>
      conv_lhs => rw [hdecomp, hr, List.append_nil]
      rw [pySplit_nil, intercalate_single]
      have h2 := collapseRuns_token (t := c :: cs.takeWhile (fun x => !pyIsSpace x))
        (r := []) htok
      rw [List.append_nil] at h2
      rw [h2, collapseRuns_nil, List.append_nil]
    | cons rc rcs =>
      have hrc : pyIsSpace rc = true := by
        have := dropWhile_head_false hr
        simpa using this
      have hlast : ∀ x, (rc :: rcs).getLast? = some x → pyIsSpace x = false := by
        intro x hx
        refine htrail x ?_
        rw [hdecomp, hr, List.getLast?_append, hx]
        rfl
      have hsplit_ne : pySplit (rc :: rcs) ≠ [] := by
        intro hnil
        have hall := pySplit_eq_nil_all_ws hnil
        have hne : (rc :: rcs) ≠ [] := by simp
        have hmem := List.getLast_mem hne
        have := hlast _ (List.getLast?_eq_getLast _ hne)
        rw [hall _ hmem] at this
        cases this
      have hcoll : collapseRuns (rc :: rcs) =
          '-' :: collapseRuns (rcs.dropWhile pyIsSpace) := by
        rw [collapseRuns, if_pos hrc]
      have hlast2 : ∀ x, (cs.dropWhile (fun x => !pyIsSpace x)).getLast? = some x →
          pyIsSpace x = false := by
        rw [hr]; exact hlast
      have hih := ih hlast2
      rw [hr, List.dropWhile_cons, if_pos hrc] at hih
      conv_lhs => rw [hdecomp, hr, collapseRuns_token htok, hcoll, hih]
      rw [intercalate_cons _ hsplit_ne]

theorem strip_decomp (l : List Char) :
    ∃ W, (∀ c ∈ W, pyIsSpace c = true) ∧ l.dropWhile pyIsSpace = pyStripL l ++ W := by
  refine ⟨((l.dropWhile pyIsSpace).reverse.takeWhile pyIsSpace).reverse, ?_, ?_⟩
  · intro c hc
    rw [List.mem_reverse] at hc
    exact List.mem_takeWhile_imp hc
  · unfold pyStripL
    conv_lhs => rw [← List.reverse_reverse (l.dropWhile pyIsSpace),
      ← List.takeWhile_append_dropWhile pyIsSpace (l.dropWhile pyIsSpace).reverse]
    rw [List.reverse_append]

theorem pyStripL_head_not_ws {l : List Char} :
    (pyStripL l).dropWhile pyIsSpace = pyStripL l := by
  obtain ⟨W, hW, hdec⟩ := strip_decomp l
  cases hs : pyStripL l with
  | nil => rfl
  | cons c cs =>
    have : l.dropWhile pyIsSpace = c :: (cs ++ W) := by rw [hdec, hs]; rfl
    have hc := dropWhile_head_false this
    rw [List.dropWhile_cons, if_neg (by simp [hc])]

theorem pyStripL_last_not_ws {l : List Char} :
    ∀ c, (pyStripL l).getLast? = some c → pyIsSpace c = false := by
  intro c hc
  unfold pyStripL at hc
  rw [List.getLast?_reverse] at hc
  cases hh : ((l.dropWhile pyIsSpace).reverse.dropWhile pyIsSpace) with
  | nil => rw [hh] at hc; cases hc
  | cons x xs =>
    rw [hh] at hc
    injection hc with hc
    rw [← hc]
    exact dropWhile_head_false hh

theorem pySplit_pyStripL (l : List Char) : pySplit (pyStripL l) = pySplit l := by
  obtain ⟨W, hW, hdec⟩ := strip_decomp l
  have h1 : pySplit (l.dropWhile pyIsSpace) = pySplit (pyStripL l) := by
    rw [hdec]
    exact pySplit_append_ws hW
  rw [← h1, pySplit_dropWhile_ws]

theorem kebab_data (s : String) :
    (kebab s).data = List.intercalate ['-'] (pySplit s.data) := by
  have hfilter : (pySplit s.data).filter (fun w => !w.isEmpty) = pySplit s.data := by
    rw [List.filter_eq_self]
    intro t ht
    have := (pySplit_tokens t ht).1
    simpa [List.isEmpty_iff] using this
  show List.intercalate ['-'] ((pySplit s.data).filter (fun w => !w.isEmpty)) =
    List.intercalate ['-'] (pySplit s.data)
  rw [hfilter]

theorem kebab_eq_specCollapse (s : String) : (kebab s).data = specCollapse s.data := by
  rw [kebab_data, ← pySplit_pyStripL s.data]
  unfold specCollapse
  rw [← collapseRuns_eq_intercalate pyStripL_last_not_ws, pyStripL_head_not_ws]

theorem kebab_no_ws (s : String) : ∀ c ∈ (kebab s).data, pyIsSpace c = false := by
  intro c hc
  rw [kebab_data] at hc
  rcases mem_intercalate_hyphen hc with rfl | ⟨t, ht, hct⟩
  · rfl
  · exact (pySplit_tokens t ht).2 c hct

theorem kebab_id_of_no_ws {s : String} (h : ∀ c ∈ s.data, pyIsSpace c = false) :
    kebab s = s := by
  refine String.ext ?_
  rw [kebab_data]
  cases hs : s.data with
  | nil => rw [pySplit_nil, intercalate_nil]
  | cons c cs =>
    have hsplit : pySplit (c :: cs) = [c :: cs] := by
      have h2 := pySplit_token (t := c :: cs) (r := []) (by simp)
        (fun x hx => h x (hs ▸ hx)) (Or.inl rfl)
      rw [List.append_nil, pySplit_nil] at h2
      exact h2
    rw [hsplit, intercalate_single]

/-- C8: the kebab-casing of `Renamer.rename` is idempotent; it is the identity
on whitespace-free strings; and on every string it acts exactly as the spec
describes — drop leading/trailing whitespace, collapse each maximal internal
whitespace run into a single hyphen, and keep all non-whitespace characters
unchanged and in order (`specCollapse`). -/
theorem c8_kebab_properties (s : String) :
    kebab (kebab s) = kebab s ∧
    ((∀ c ∈ s.data, pyIsSpace c = false) → kebab s = s) ∧
    (kebab s).data = specCollapse s.data := by
  refine ⟨kebab_id_of_no_ws (kebab_no_ws s), fun h => kebab_id_of_no_ws h,
    kebab_eq_specCollapse s⟩

/-- C8 witness: the whitespace-free string `"a-b,c"` is fixed by kebab-casing. -/
theorem c8_kebab_properties_witness : kebab "a-b,c" = "a-b,c" := by
  exact (c8_kebab_properties "a-b,c").2.1 (by decide)

/-! ### Filename Builder (C5) -/

theorem natReprGo_small {f n : Nat} (h : n < 10) : natReprGo f n = [digitChar n] := by
  cases f with
  | zero => rfl
  | succ f => rw [natReprGo, if_pos h]

theorem natReprGo_congr : ∀ f1 f2 n : Nat, n ≤ f1 → n ≤ f2 →
    natReprGo f1 n = natReprGo f2 n := by
  intro f1
  induction f1 with
  | zero =>
    intro f2 n h1 h2
    have hn : n = 0 := Nat.le_zero.1 h1
    subst hn
    rw [natReprGo_small (by decide), natReprGo_small (by decide)]
  | succ f ih =>
    intro f2 n h1 h2
    by_cases hn : n < 10
    · rw [natReprGo_small hn, natReprGo_small hn]
    · cases f2 with
      | zero => omega
      | succ f2 =>
        rw [natReprGo, if_neg hn, natReprGo, if_neg hn]
        have hdiv : n / 10 < n := Nat.div_lt_self (by omega) (by decide)
        rw [ih f2 (n / 10) (by omega) (by omega)]

theorem natRepr_eq (n : Nat) :
    natRepr n = if n < 10 then [digitChar n]
      else natRepr (n / 10) ++ [digitChar (n % 10)] := by
  by_cases hn : n < 10
  · rw [if_pos hn]
    exact natReprGo_small hn
  · rw [if_neg hn]
    show natReprGo n n = natReprGo (n / 10) (n / 10) ++ [digitChar (n % 10)]
    have hdiv : n / 10 < n := Nat.div_lt_self (by omega) (by decide)
    cases hn2 : n with
    | zero => omega
    | succ m =>
      rw [natReprGo, if_neg (hn2 ▸ hn)]
      rw [natReprGo_congr m (n / 10) ((m + 1) / 10) (by omega) (by omega), hn2]

theorem natRepr_ne_nil (n : Nat) : natRepr n ≠ [] := by
  rw [natRepr_eq]
  by_cases hn : n < 10
  · rw [if_pos hn]; simp
  · rw [if_neg hn]; simp

theorem digitChar_inj_lt :
    ∀ a, a < 10 → ∀ b, b < 10 → digitChar a = digitChar b → a = b := by decide

theorem natRepr_inj : ∀ a b : Nat, natRepr a = natRepr b → a = b := by
  intro a
  induction a using Nat.strong_induction_on with
  | _ a ih =>
    intro b h
    by_cases ha : a < 10 <;> by_cases hb : b < 10
    · rw [natRepr_eq a, if_pos ha, natRepr_eq b, if_pos hb] at h
      injection h with h1 _
      exact digitChar_inj_lt a ha b hb h1
    · rw [natRepr_eq a, if_pos ha, natRepr_eq b, if_neg hb] at h
      have hlen := congrArg List.length h
      simp only [List.length_append, List.length_cons, List.length_nil] at hlen
      exact absurd (List.eq_nil_of_length_eq_zero (by omega)) (natRepr_ne_nil (b / 10))
    · rw [natRepr_eq a, if_neg ha, natRepr_eq b, if_pos hb] at h
      have hlen := congrArg List.length h
      simp only [List.length_append, List.length_cons, List.length_nil] at hlen
      exact absurd (List.eq_nil_of_length_eq_zero (by omega)) (natRepr_ne_nil (a / 10))
    · rw [natRepr_eq a, if_neg ha, natRepr_eq b, if_neg hb] at h
      have hrev := congrArg List.reverse h
      simp only [List.reverse_append, List.reverse_cons, List.reverse_nil,
        List.nil_append, List.cons_append] at hrev
      injection hrev with h1 h2
      have hmod : a % 10 = b % 10 :=
        digitChar_inj_lt _ (Nat.mod_lt _ (by decide)) _ (Nat.mod_lt _ (by decide)) h1
      have hq : a / 10 = b / 10 := by
        refine ih (a / 10) (Nat.div_lt_self (by omega) (by decide)) (b / 10) ?_
        have := congrArg List.reverse h2
        simpa using this
      omega

theorem uniqueCand_length_base (d p t e : String) :
    (uniqueCand d p t e 0).length = d.length + 1 + p.length + 1 + t.length + e.length := by
  show (d ++ "_" ++ p ++ "_" ++ t ++ e).length = _
  simp only [String.length_append]
  rfl

theorem uniqueCand_length_suffixed (d p t e : String) (k : Nat) :
    (uniqueCand d p t e (k + 1)).length =
      d.length + 1 + p.length + 1 + t.length + 1 + (natRepr (k + 1)).length + e.length := by
  show (d ++ "_" ++ p ++ "_" ++ t ++ "_" ++ natReprS (k + 1) ++ e).length = _
  simp only [String.length_append]
  rfl

theorem uniqueCand_inj (d p t e : String) : Function.Injective (uniqueCand d p t e) := by
  intro m n h
  match m, n with
  | 0, 0 => rfl
  | 0, k + 1 =>
    exfalso
    have h1 := congrArg String.length h
    rw [uniqueCand_length_base, uniqueCand_length_suffixed] at h1
    have h2 : (natRepr (k + 1)).length ≠ 0 := by
      intro h0
      exact natRepr_ne_nil _ (List.eq_nil_of_length_eq_zero h0)
    omega
  | j + 1, 0 =>
    exfalso
    have h1 := congrArg String.length h
    rw [uniqueCand_length_base, uniqueCand_length_suffixed] at h1
    have h2 : (natRepr (j + 1)).length ≠ 0 := by
      intro h0
      exact natRepr_ne_nil _ (List.eq_nil_of_length_eq_zero h0)
    omega
  | j + 1, k + 1 =>
    have hd := congrArg String.data h
    simp only [uniqueCand, String.data_append, List.append_assoc] at hd
    have h1 := List.append_cancel_left hd
    have h2 := List.append_cancel_left h1
    have h3 := List.append_cancel_left h2
    have h4 := List.append_cancel_left h3
    have h5 := List.append_cancel_left h4
    have h6 := List.append_cancel_left h5
    have h8 := List.append_cancel_right h6
    have h9 : natRepr (j + 1) = natRepr (k + 1) := h8
    exact congrArg (· + 1) (Nat.succ_injective (natRepr_inj _ _ h9))

theorem exists_free_index (existing : List String) (cand : Nat → String)
    (hinj : Function.Injective cand) :
    ∃ j, j ≤ existing.length ∧ cand j ∉ existing := by
  by_contra hno
  push_neg at hno
  have hcard : (Finset.range (existing.length + 1)).card ≤ existing.toFinset.card := by
    rw [← Finset.card_image_of_injective (Finset.range (existing.length + 1)) hinj]
    refine Finset.card_le_card ?_
    intro x hx
    rcases Finset.mem_image.1 hx with ⟨j, hj, rfl⟩
    exact List.mem_toFinset.2 (hno j (Nat.lt_succ_iff.1 (Finset.mem_range.1 hj)))
  have hlen := List.toFinset_card_le existing
  rw [Finset.card_range] at hcard
  omega

theorem uniqueLoop_first (existing : List String) (cand : Nat → String) :
    ∀ fuel i j, j ≤ fuel → cand (i + j) ∉ existing →
    (∀ m < j, cand (i + m) ∈ existing) →
    uniqueLoop existing cand i fuel = cand (i + j) := by
  intro fuel
  induction fuel with
  | zero =>
    intro i j hj hfree hbefore
    have hj0 : j = 0 := Nat.le_zero.1 hj
    subst hj0
    rfl
  | succ f ih =>
    intro i j hj hfree hbefore
    rw [uniqueLoop]
    by_cases hmem : cand i ∈ existing
    · rw [if_pos hmem]
      cases j with
      | zero => exact absurd (by simpa using hfree) (by simpa using hmem)
      | succ j2 =>
        have hstep := ih (i + 1) j2 (by omega)
          (by rw [show i + 1 + j2 = i + (j2 + 1) by omega]; exact hfree)
          (fun m hm => by
            rw [show i + 1 + m = i + (m + 1) by omega]
            exact hbefore (m + 1) (by omega))
        rw [hstep]
        congr 1
        omega
    · rw [if_neg hmem]
      cases j with
      | zero => rfl
      | succ j2 => exact absurd (by simpa using hbefore 0 (by omega)) hmem

/-- C5: the Filename Builder never returns a name already present in the
output directory listing, and when the base candidate and the suffixed
candidates `_1 … _{N-1}` are all present while the `_N` candidate is not, it
returns exactly the `_N` candidate (`uniqueCand … N`). -/
theorem c5_unique_filename (existing : List String) (d p t e : String) :
    make_unique_name existing d p t e ∉ existing ∧
    ∀ N, (∀ i < N, uniqueCand d p t e i ∈ existing) →
      uniqueCand d p t e N ∉ existing →
      make_unique_name existing d p t e = uniqueCand d p t e N := by
  have hinj := uniqueCand_inj d p t e
  have hex : ∃ j, uniqueCand d p t e j ∉ existing := by
    obtain ⟨j, _, hj⟩ := exists_free_index existing _ hinj
    exact ⟨j, hj⟩
  have hfree : uniqueCand d p t e (Nat.find hex) ∉ existing := Nat.find_spec hex
  have hmin : ∀ m < Nat.find hex, uniqueCand d p t e m ∈ existing := by
    intro m hm
    have := Nat.find_min hex hm
    simpa using this
  have hle : Nat.find hex ≤ existing.length := by
    obtain ⟨j, hjle, hj⟩ := exists_free_index existing _ hinj
    exact le_trans (Nat.find_min' hex hj) hjle
  have hloop : make_unique_name existing d p t e = uniqueCand d p t e (Nat.find hex) := by
    have h2 := uniqueLoop_first existing (uniqueCand d p t e) (existing.length + 1) 0
      (Nat.find hex) (by omega) (by simpa using hfree) (fun m hm => by simpa using hmin m hm)
    simpa [make_unique_name] using h2
  refine ⟨by rw [hloop]; exact hfree, ?_⟩
  intro N hall hNfree
  have hJN : Nat.find hex = N := by
    have h1 : Nat.find hex ≤ N := Nat.find_min' hex hNfree
    by_contra hne
    exact hfree (hall _ (lt_of_le_of_ne h1 hne))
  rw [hloop, hJN]

/-- C5 witness: with the base name and its `_1` variant both taken, the
builder returns the `_2` variant. -/
theorem c5_unique_filename_witness :
    make_unique_name ["d_p_t.pdf", "d_p_t_1.pdf"] "d" "p" "t" ".pdf" = "d_p_t_2.pdf" ∧
    "d_p_t_2.pdf" ∉ ["d_p_t.pdf", "d_p_t_1.pdf"] := by
  have h := (c5_unique_filename ["d_p_t.pdf", "d_p_t_1.pdf"] "d" "p" "t" ".pdf").2 2
    (by decide) (by decide)
  exact ⟨by rw [h]; decide, by decide⟩

/-! ### Model-output parsing (C1, C9) -/

/-- C1: `_extract_publish_date` evaluated at the model-boundary outcomes.
When the response is not valid JSON (`json.loads` raises, `_invoke_model`
returns `None`), the method RAISES `TypeError` — `"end_date" in None` — so the
malformed-JSON case becomes a per-document fatal error instead of the null
return the claim describes.  The remaining cases behave as claimed: a missing
`end_date` key, an empty `end_date`, and a non-ISO `end_date` all yield null,
and a present, non-empty, ISO-parseable `end_date` is reformatted with the
caller-supplied strftime pattern. -/
theorem c1_publish_date_eval :
    extract_publish_date "%Y%m%d" none = .error typeErrorNoneNotIterable ∧
    extract_publish_date "%Y%m%d" (some (.obj [("reasoning", .str "x")])) = .ok none ∧
    extract_publish_date "%Y%m%d" (some (.obj [("end_date", .str "")])) = .ok none ∧
    extract_publish_date "%Y%m%d" (some (.obj [("end_date", .str "not-a-date")])) =
      .ok none ∧
    extract_publish_date "%Y%m%d" (some (.obj [("end_date", .str "2025-02-10")])) =
      .ok (some "20250210") :=
  ⟨rfl, rfl, rfl, rfl, rfl⟩

theorem extractField_ok_truthy {key : String} {a : Json} {v : Json}
    (h : extractField key a = .ok (some v)) : pyTruthy v = true := by
  unfold extractField at h
  split at h
  next e hP => exact Except.noConfusion h
  next hP =>
    injection h with h1
    exact Option.noConfusion h1
  next hP =>
    split at h
    next e hG => exact Except.noConfusion h
    next w hG =>
      by_cases ht : pyTruthy w
      · rw [if_pos ht] at h
        injection h with h1
        injection h1 with h2
        rw [← h2]
        exact ht
      · rw [if_neg ht] at h
        injection h with h1
        exact Option.noConfusion h1

theorem extract_publisher_fields {ans : Option Json} {mt mp : Option Json}
    (h : extract_publisher ans = .ok (mt, mp)) :
    (∀ v, mt = some v → pyTruthy v = true) ∧ (∀ v, mp = some v → pyTruthy v = true) := by
  match ans with
  | none => exact Except.noConfusion h
  | some a =>
    unfold extract_publisher at h
    simp only [] at h
    split at h
    next e hP => exact Except.noConfusion h
    next pub hP =>
      split at h
      next e hT => exact Except.noConfusion h
      next tit hT =>
        injection h with h1
        injection h1 with h2 h3
        subst h2
        subst h3
        constructor
        · intro v hv
          exact extractField_ok_truthy (hv ▸ hT)
        · intro v hv
          exact extractField_ok_truthy (hv ▸ hP)

/-- C9: for any `(title, publisher)` pair that `_extract_publisher` returned,
the combination step of `Renamer.rename` uses both model values when both are
present (and is then independent of the stem, i.e. the Heuristic Splitter is
not consulted); fills exactly the missing field from the Heuristic Splitter
when exactly one is null; and uses both heuristic values when both are null. -/
theorem c9_fallback_policy (ans : Option Json) (mt mp : Option Json) (stem : String)
    (h : extract_publisher ans = .ok (mt, mp)) :
    (∀ t p, mt = some t → mp = some p →
      resolve_title_publisher mt mp stem = (t, p) ∧
      ∀ stem2 : String, resolve_title_publisher mt mp stem2 =
        resolve_title_publisher mt mp stem) ∧
    (∀ t, mt = some t → mp = none →
      resolve_title_publisher mt mp stem =
        (t, .str (split_publisher_and_title stem).2)) ∧
    (∀ p, mt = none → mp = some p →
      resolve_title_publisher mt mp stem =
        (.str (split_publisher_and_title stem).1, p)) ∧
    (mt = none → mp = none →
      resolve_title_publisher mt mp stem =
        (.str (split_publisher_and_title stem).1, .str (split_publisher_and_title stem).2)) := by
  obtain ⟨htm, htp⟩ := extract_publisher_fields h
  refine ⟨?_, ?_, ?_, ?_⟩
  · rintro t p rfl rfl
    exact ⟨rfl, fun stem2 => rfl⟩
  · rintro t rfl rfl
    have ht := htm t rfl
    simp [resolve_title_publisher, pyOrJson, ht]
  · rintro p rfl rfl
    have hp := htp p rfl
    simp [resolve_title_publisher, pyOrJson, hp]
  · rintro rfl rfl
    simp [resolve_title_publisher, pyOrJson]

/-- C9 witness: with the model returning both `title` and `publisher`, the
combination step keeps both model values. -/
theorem c9_fallback_policy_witness :
    resolve_title_publisher (some (.str "T")) (some (.str "P")) "a _ b" =
      (.str "T", .str "P") := by
  have h := (c9_fallback_policy (some (.obj [("publisher", .str "P"), ("title", .str "T")]))
    (some (.str "T")) (some (.str "P")) "a _ b" rfl).1
  exact (h (.str "T") (.str "P") rfl rfl).1

/-! ### Batch runner (C2, C3, C4) -/

/-- C2 counterexample: a batch of two files where the MOVE of the first file
(`file.replace`) raises.  Because the move is performed in the `else` of the
`try` (outside it), the exception is not caught: the batch aborts with no
event logged for either file, and the second file — whose own failure the
claim says would merely be logged — is never processed at all. -/
theorem c2_move_abort_counterexample :
    run true true ⟨false, ["out"]⟩
      [⟨.ok (some ⟨false, ["out", "a.pdf"]⟩), .error "OSError: disk full"⟩,
       ⟨.error "unreadable PDF", .ok ()⟩] =
    ([], .error "OSError: disk full") := rfl

theorem processFiles_no_abort (outDir : PPath) :
    ∀ files : List FileProc,
    (∀ f ∈ files, ∀ p, f.renameOutcome = .ok (some p) → f.moveOutcome = .ok ()) →
    processFiles outDir files = (files.map (eventOf outDir), none) := by
  intro files
  induction files with
  | nil => intro _; rfl
  | cons f fs ih =>
    intro hmove
    have hfs := fun g hg => hmove g (List.mem_cons_of_mem f hg)
    cases hr : f.renameOutcome with
    | error e => simp [processFiles, eventOf, hr, ih hfs]
    | ok o =>
      cases o with
      | none => simp [processFiles, eventOf, hr, ih hfs]
      | some p =>
        have hm := hmove f (List.mem_cons_self f fs) p hr
        simp [processFiles, eventOf, hr, hm, ih hfs]

/-- C2 (amended): an exception raised inside `renamer.rename` (e.g. an
unreadable PDF) is logged (`skipped` event) and only that file is dropped —
the loop always reaches every file — provided the move step fails for no file; an
exception from `file.replace` itself is raised outside the `try` and aborts
the batch (see the counterexample). -/
theorem c2_per_file_isolation (outDir : PPath) (files : List FileProc)
    (hmove : ∀ f ∈ files, ∀ p, f.renameOutcome = .ok (some p) → f.moveOutcome = .ok ()) :
    processFiles outDir files = (files.map (eventOf outDir), none) ∧
    run true true outDir files = (files.map (eventOf outDir), .ok 0) := by
  have h1 := processFiles_no_abort outDir files hmove
  refine ⟨h1, ?_⟩
  cases files with
  | nil => rfl
  | cons f fs => simp [run, h1]

/-- C2 witness: a three-file batch — rename raises on the first, returns
`None` on the second, succeeds on the third — processes every file, logging
and skipping only the first. -/
theorem c2_per_file_isolation_witness :
    processFiles ⟨false, ["out"]⟩
      [⟨.error "unreadable PDF", .ok ()⟩, ⟨.ok none, .ok ()⟩,
       ⟨.ok (some ⟨false, ["x.pdf"]⟩), .ok ()⟩] =
    ([.skipped "unreadable PDF", .noRename, .moved ⟨false, ["out", "x.pdf"]⟩], none) := by
  have h := (c2_per_file_isolation ⟨false, ["out"]⟩
    [⟨.error "unreadable PDF", .ok ()⟩, ⟨.ok none, .ok ()⟩,
     ⟨.ok (some ⟨false, ["x.pdf"]⟩), .ok ()⟩] ?_).1
  · rw [h]; rfl
  · intro f hf p hp
    rcases List.mem_cons.1 hf with rfl | hf
    · exact Except.noConfusion hp
    rcases List.mem_cons.1 hf with rfl | hf
    · injection hp with h1; exact Option.noConfusion h1
    rcases List.mem_cons.1 hf with rfl | hf
    · rfl
    · cases hf

/-- C3 counterexample: an invocation where the input directory does not exist
AND the output directory does not exist exits with code 0, not 1 — the input
check runs first — refuting "for every invocation in which the output
directory does not exist, the exit code is 1". -/
theorem c3_exit_counterexample :
    run false false ⟨false, ["out"]⟩ [] = ([], .ok 0) ∧
    (([], Except.ok 0) : List FileEvent × Except String Int) ≠ ([], .ok 1) :=
  ⟨rfl, by simp⟩

/-- C3 (amended): a missing input directory, or an empty match list, exits 0
regardless of the output directory; the exit code is 1 (with no file
processed) exactly for invocations where the input directory exists, at least
one `*.pdf` matched, and the output directory is missing. -/
theorem c3_exit_codes (outDir : PPath) (files : List FileProc) (outputExists : Bool) :
    (run false outputExists outDir files).2 = .ok 0 ∧
    (run true outputExists outDir []).2 = .ok 0 ∧
    (files ≠ [] → run true false outDir files = ([], .ok 1)) := by
  refine ⟨rfl, rfl, fun hne => ?_⟩
  cases files with
  | nil => exact absurd rfl hne
  | cons f fs => rfl

/-- C3 witness: input present with one pdf, output missing — exit code 1, no
events. -/
theorem c3_exit_codes_witness :
    run true false ⟨false, ["out"]⟩ [⟨.ok none, .ok ()⟩] = ([], .ok 1) :=
  (c3_exit_codes ⟨false, ["out"]⟩ [⟨.ok none, .ok ()⟩] false).2.2 (by simp)

/-- C4: the move destination `output_dir / renamed` (renamer.py line 301)
joins the output directory onto the FULL path already returned by the
Filename Builder.  With a relative output directory `out` the destination is
`out/out/<name>`, not the unique builder candidate `out/<name>` — so the
computed collision-freedom says nothing about the actual destination; the two
only coincide when the output directory is absolute. -/
theorem c4_move_destination_eval :
    moveDest ⟨false, ["out"]⟩
        (make_unique_filename ⟨false, ["out"]⟩ [] "2025-01-01" "pub" "title" ".pdf") =
      ⟨false, ["out", "out", "2025-01-01_pub_title.pdf"]⟩ ∧
    moveDest ⟨false, ["out"]⟩
        (make_unique_filename ⟨false, ["out"]⟩ [] "2025-01-01" "pub" "title" ".pdf") ≠
      make_unique_filename ⟨false, ["out"]⟩ [] "2025-01-01" "pub" "title" ".pdf" ∧
    moveDest ⟨true, ["data", "out"]⟩
        (make_unique_filename ⟨true, ["data", "out"]⟩ [] "2025-01-01" "pub" "title" ".pdf") =
      make_unique_filename ⟨true, ["data", "out"]⟩ [] "2025-01-01" "pub" "title" ".pdf" := by
  refine ⟨rfl, by decide, rfl⟩

end PdfRenamer
